import Mathlib

set_option maxHeartbeats 1000000
set_option maxRecDepth 4096

/-! Verification of the Newton installer serial-protocol core
    (file `newton_installer.py`): checksum engine, frame codec,
    link-layer wait primitive, sequence counter, package chunking,
    progress reporting and session cleanup.  Byte streams are modelled
    as `List Nat` (every transmitted byte is below 256); Python machine
    arithmetic is rendered with `%`, `/`, and bitwise operations on
    `Nat` exactly as the source performs it. -/

/-- CRC update, translated from `fcs_calc` (newton_installer.py lines 84-90):
for each of the 8 bits of `octet`, least significant first, compare the low
bit of the running word with that bit; on mismatch halve the word and xor
`0xa001`, otherwise just halve it. -/
def fcs_calc (fcs_word octet : Nat) : Nat :=
  (List.range 8).foldl
    (fun w i =>
      if (((w % 256) &&& 0x01) == 0x01) != ((octet &&& (1 <<< i)) != 0)
      then (w / 2) ^^^ 0xa001 else w / 2) fcs_word

/-- One CRC bit step, with the consumed input bit supplied as a `Bool`. -/
def fcsStep (b : Bool) (w : Nat) : Nat :=
  if (w % 2 == 1) != b then (w / 2) ^^^ 0xa001 else w / 2

lemma and_one_mod_two (w : Nat) : (w % 256) &&& 1 = w % 2 := by
  rw [Nat.and_one_is_mod, Nat.mod_mod_of_dvd]
  norm_num

lemma and_shift_testBit (octet i : Nat) :
    ((octet &&& (1 <<< i)) != 0) = octet.testBit i := by
  rw [Nat.one_shiftLeft, Nat.and_two_pow]
  cases h : octet.testBit i <;> simp [h, Nat.pow_eq_zero]

lemma fcs_calc_eq_foldStep (w octet : Nat) :
    fcs_calc w octet =
      (List.range 8).foldl (fun w i => fcsStep (octet.testBit i) w) w := by
  unfold fcs_calc fcsStep
  apply List.foldl_ext
  intro a b _
  rw [and_one_mod_two, and_shift_testBit]

/-- The checksum update exactly as the spec words it (§4.1): for each of the
8 bits of the octet, least-significant first, xor the low bit of the running
value with that bit; if the result is 1, right-shift the running value one
bit and xor with `0xa001`, otherwise just right-shift.  Written from the
spec's sentence, to be compared against the source's `fcs_calc`. -/
def crcUpdateSpec (v octet : Nat) : Nat :=
  (List.range 8).foldl
    (fun w i =>
      if (w % 2 == 1) != octet.testBit i then (w / 2) ^^^ 0xa001 else w / 2) v

lemma fcsStep_lt (b : Bool) (w : Nat) (h : w < 65536) : fcsStep b w < 65536 := by
  have h2 : w / 2 < 65536 := lt_of_le_of_lt (Nat.div_le_self w 2) h
  unfold fcsStep
  split
  · have : (65536 : Nat) = 2 ^ 16 := by norm_num
    rw [this] at h2 ⊢
    exact Nat.xor_lt_two_pow h2 (by norm_num)
  · exact h2

lemma foldStep_lt (is : List Nat) (f : Nat → Bool) :
    ∀ w : Nat, w < 65536 → is.foldl (fun w i => fcsStep (f i) w) w < 65536 := by
  induction is with
  | nil => intro w hw; simpa using hw
  | cons i is ih =>
      intro w hw
      simpa using ih (fcsStep (f i) w) (fcsStep_lt (f i) w hw)

lemma fcs_calc_lt (v octet : Nat) (hv : v < 65536) : fcs_calc v octet < 65536 := by
  rw [fcs_calc_eq_foldStep]
  exact foldStep_lt (List.range 8) octet.testBit v hv

lemma fold_fcs_lt (bs : List Nat) : ∀ v : Nat, v < 65536 →
    List.foldl fcs_calc v bs < 65536 := by
  induction bs with
  | nil => intro v hv; simpa using hv
  | cons b bs ih =>
      intro v hv
      simpa using ih (fcs_calc v b) (fcs_calc_lt v b hv)

/-- C10: every checksum update of a 16-bit running value by a byte octet
yields a 16-bit value again, so the low byte and high byte emitted for the
checksum trailer are each valid single bytes below 256. -/
theorem fcs_calc_range (v octet : Nat) (hv : v < 65536) (_ho : octet < 256) :
    fcs_calc v octet < 65536 ∧
      fcs_calc v octet % 256 < 256 ∧ fcs_calc v octet / 256 < 256 := by
  have h := fcs_calc_lt v octet hv
  exact ⟨h, by omega, by omega⟩

theorem fcs_calc_range_witness :
    fcs_calc 4660 171 < 65536 ∧
      fcs_calc 4660 171 % 256 < 256 ∧ fcs_calc 4660 171 / 256 < 256 :=
  fcs_calc_range 4660 171 (by decide) (by decide)

/-- Start marker `b'\x16\x10\x02'` (line 13). -/
def FRAME_START : List Nat := [0x16, 0x10, 0x02]

/-- End marker `b'\x10\x03'` (line 14). -/
def FRAME_END : List Nat := [0x10, 0x03]

/-- Maximum payload chunk size (line 10). -/
def MAX_INFO_LEN : Nat := 256

/-- Byte-stuffed rendering of a logical byte list: each byte is written once,
and a second `0x10` follows every logical `0x10` (lines 97-98, 102-103). -/
def stuffBytes : List Nat → List Nat
  | [] => []
  | b :: bs => (if b == 0x10 then [b, 0x10] else [b]) ++ stuffBytes bs

/-- The per-byte loop of `send_frame` (lines 95-98 and 100-103): update the
running checksum with the logical byte, write it, and double it when it is
the escape byte.  Returns the updated checksum and the extended output. -/
def sendLoop : List Nat → Nat → List Nat → Nat × List Nat
  | [], fcs, out => (fcs, out)
  | b :: bs, fcs, out =>
      sendLoop bs (fcs_calc fcs b) (out ++ (if b == 0x10 then [b, 0x10] else [b]))

/-- `send_frame` (lines 92-106): start marker, stuffed header, stuffed
optional payload, end marker, then the checksum updated with the terminator
byte `FRAME_END[1] = 0x03` and emitted low byte first.  An absent payload is
modelled as `[]`, over which the byte loop does nothing, exactly as the
Python `if info:` guard. -/
def send_frame (head : List Nat) (info : List Nat) : List Nat :=
  let s1 := sendLoop head 0 FRAME_START
  let s2 := sendLoop info s1.1 s1.2
  let out := s2.2 ++ FRAME_END
  let fcs := fcs_calc s2.1 (FRAME_END.getD 1 0)
  out ++ [fcs % 256, fcs / 256]

/-- Transition of the start-marker scanner (lines 115-118): the three
matching cases advance the state, anything else resets it to 0. -/
def scanStep (state b : Nat) : Nat :=
  if state == 0 && b == 0x16 then 1
  else if state == 1 && b == 0x10 then 2
  else if state == 2 && b == 0x02 then 3
  else 0

/-- The scanning loop of `recv_frame` (lines 111-118): consume input bytes
until the scanner reaches state 3, returning the remaining input; `none`
models `port.read` returning no byte (timeout), upon which `recv_frame`
returns `None`. -/
def scanLoop : Nat → List Nat → Option (List Nat)
  | _, [] => none
  | st, b :: rest =>
      if scanStep st b == 3 then some rest else scanLoop (scanStep st b) rest

/-- The body loop of `recv_frame` (lines 120-137), state 0 or 1: in state 0
a `0x10` moves to state 1 and any other byte is accumulated; in state 1 a
second `0x10` is un-stuffed (accumulated once), a `0x03` terminates the
frame (checksum-accumulated), and any other byte is silently dropped with
the state left at 1, exactly as the Python `elif` chain.  On termination it
returns the accumulated checksum, the logical frame data, and the remaining
input. -/
def bodyLoop : Nat → Nat → List Nat → List Nat → Option (Nat × List Nat × List Nat)
  | _, _, _, [] => none
  | 0, fcs, acc, b :: rest =>
      if b == 0x10 then bodyLoop 1 fcs acc rest
      else bodyLoop 0 (fcs_calc fcs b) (acc ++ [b]) rest
  | _ + 1, fcs, acc, b :: rest =>
      if b == 0x10 then bodyLoop 0 (fcs_calc fcs b) (acc ++ [b]) rest
      else if b == 0x03 then some (fcs_calc fcs b, acc, rest)
      else bodyLoop 1 fcs acc rest

/-- `recv_frame` (lines 108-143): scan for the start marker, read the frame
body applying the un-stuffing rule, then read the two trailing checksum
bytes and compare low byte and high byte against the accumulated value.
Returns the logical frame data together with the unconsumed input, or
`none` where the Python returns `None`. -/
def recv_frame (input : List Nat) : Option (List Nat × List Nat) :=
  match scanLoop 0 input with
  | none => none
  | some r1 =>
      match bodyLoop 0 0 [] r1 with
      | none => none
      | some (fcs, data, r2) =>
          match r2 with
          | lo :: hi :: r3 =>
              if fcs % 256 == lo && fcs / 256 == hi then some (data, r3) else none
          | _ => none

lemma sendLoop_eq (bs : List Nat) : ∀ (fcs : Nat) (out : List Nat),
    sendLoop bs fcs out = (List.foldl fcs_calc fcs bs, out ++ stuffBytes bs) := by
  induction bs with
  | nil => intro fcs out; simp [sendLoop, stuffBytes]
  | cons b bs ih =>
      intro fcs out
      simp [sendLoop, stuffBytes, ih, List.append_assoc]

lemma send_frame_eq (head info : List Nat) :
    send_frame head info =
      FRAME_START ++ stuffBytes head ++ stuffBytes info ++ FRAME_END ++
        [(List.foldl fcs_calc 0 (head ++ info ++ [0x03])) % 256,
         (List.foldl fcs_calc 0 (head ++ info ++ [0x03])) / 256] := by
  unfold send_frame
  simp [sendLoop_eq, FRAME_END, List.foldl_append, List.append_assoc]

/-- C2: the per-octet checksum update agrees everywhere with the bit-serial
CRC exactly as the spec describes it, and the emitted frame carries, after
the end marker, the fold of this update (from 0) over every header byte,
every payload byte and the single `0x03` terminator in emission order —
the byte-stuffed doubles appear in the stream but each logical `0x10` is
accumulated once — transmitted as two bytes, low byte first. -/
theorem checksum_spec_and_trailer :
    (∀ v octet : Nat, fcs_calc v octet = crcUpdateSpec v octet) ∧
    (∀ head info : List Nat,
      send_frame head info =
        FRAME_START ++ stuffBytes head ++ stuffBytes info ++ FRAME_END ++
          [(List.foldl fcs_calc 0 (head ++ info ++ [0x03])) % 256,
           (List.foldl fcs_calc 0 (head ++ info ++ [0x03])) / 256]) := by
  constructor
  · intro v octet
    rw [fcs_calc_eq_foldStep]
    rfl
  · exact send_frame_eq

lemma scanLoop_start (rest : List Nat) :
    scanLoop 0 (FRAME_START ++ rest) = some rest := by
  simp [FRAME_START, scanLoop, scanStep]

lemma bodyLoop_stuffed (bs : List Nat) : ∀ (fcs : Nat) (acc tail : List Nat),
    bodyLoop 0 fcs acc (stuffBytes bs ++ tail) =
      bodyLoop 0 (List.foldl fcs_calc fcs bs) (acc ++ bs) tail := by
  induction bs with
  | nil => intro fcs acc tail; simp [stuffBytes]
  | cons b bs ih =>
      intro fcs acc tail
      by_cases hb : b = 0x10
      · subst hb
        simp [stuffBytes, bodyLoop, ih, List.append_assoc]
      · have hb' : (b == 0x10) = false := by simp [hb]
        simp [stuffBytes, hb', bodyLoop, ih, List.append_assoc]

lemma bodyLoop_end (fcs : Nat) (acc tail : List Nat) :
    bodyLoop 0 fcs acc (FRAME_END ++ tail) = some (fcs_calc fcs 0x03, acc, tail) := by
  simp [FRAME_END, bodyLoop]

lemma stuffBytes_append (xs ys : List Nat) :
    stuffBytes (xs ++ ys) = stuffBytes xs ++ stuffBytes ys := by
  induction xs with
  | nil => simp [stuffBytes]
  | cons x xs ih => simp [stuffBytes, ih]

/-- C1: encoding any header and optional payload with `send_frame` and
decoding the produced byte stream with `recv_frame` yields exactly the
original header and payload bytes concatenated, with the whole stream
consumed and the checksum accepted. -/
theorem frame_roundtrip (head info : List Nat) :
    recv_frame (send_frame head info) = some (head ++ info, []) := by
  set F := List.foldl fcs_calc 0 (head ++ info ++ [0x03]) with hFdef
  have hstream : send_frame head info =
      FRAME_START ++ (stuffBytes (head ++ info) ++ (FRAME_END ++ [F % 256, F / 256])) := by
    rw [send_frame_eq, stuffBytes_append]
    simp [List.append_assoc, hFdef, List.foldl_append]
  have h1 : scanLoop 0 (send_frame head info) =
      some (stuffBytes (head ++ info) ++ (FRAME_END ++ [F % 256, F / 256])) := by
    rw [hstream, scanLoop_start]
  have h2 : bodyLoop 0 0 []
      (stuffBytes (head ++ info) ++ (FRAME_END ++ [F % 256, F / 256])) =
      some (F, head ++ info, [F % 256, F / 256]) := by
    rw [bodyLoop_stuffed, bodyLoop_end, List.nil_append, hFdef]
    simp [List.foldl_append]
  simp [recv_frame, h1, h2]

lemma fcsStep_eq_xor_mask (b : Bool) (v : Nat) :
    fcsStep b v = (v / 2) ^^^ (if (v % 2 == 1) != b then 0xa001 else 0) := by
  unfold fcsStep
  split <;> simp

lemma xor_xor_swap (a b c d : Nat) :
    (a ^^^ b) ^^^ (c ^^^ d) = (a ^^^ c) ^^^ (b ^^^ d) := by
  apply Nat.eq_of_testBit_eq
  intro i
  simp [Bool.xor_assoc, Bool.xor_comm, Bool.xor_left_comm]

lemma mask_xor (p q : Bool) :
    ((if p then 0xa001 else 0) : Nat) ^^^ (if q then 0xa001 else 0) =
      if (p ^^ q) then 0xa001 else 0 := by
  cases p <;> cases q <;> simp

lemma cond_mod_xor (v w : Nat) (b c : Bool) :
    (((v ^^^ w) % 2 == 1) != (b ^^ c)) =
      (((v % 2 == 1) != b) ^^ ((w % 2 == 1) != c)) := by
  have hm : (v ^^^ w) % 2 = (v % 2 + w % 2) % 2 := by
    rw [Nat.xor_mod_two_eq]
    omega
  rcases Nat.mod_two_eq_zero_or_one v with hv | hv <;>
    rcases Nat.mod_two_eq_zero_or_one w with hw | hw <;>
      rw [hm, hv, hw] <;> cases b <;> cases c <;> rfl

/-- The CRC bit step is an xor homomorphism in the pair (state, input bit). -/
lemma fcsStep_xor (b c : Bool) (v w : Nat) :
    fcsStep b v ^^^ fcsStep c w = fcsStep (b ^^ c) (v ^^^ w) := by
  rw [fcsStep_eq_xor_mask, fcsStep_eq_xor_mask, fcsStep_eq_xor_mask,
    xor_xor_swap, Nat.xor_div_two, mask_xor, cond_mod_xor]

lemma foldStep_xor (is : List Nat) (f g : Nat → Bool) : ∀ v w : Nat,
    (is.foldl (fun w i => fcsStep (f i) w) v) ^^^
        (is.foldl (fun w i => fcsStep (g i) w) w) =
      is.foldl (fun w i => fcsStep (f i ^^ g i) w) (v ^^^ w) := by
  induction is with
  | nil => intro v w; rfl
  | cons i is ih =>
      intro v w
      simp only [List.foldl_cons]
      rw [ih, fcsStep_xor]

/-- The CRC octet update is an xor homomorphism in the pair (state, octet). -/
lemma fcs_calc_xor (v w b c : Nat) :
    fcs_calc v b ^^^ fcs_calc w c = fcs_calc (v ^^^ w) (b ^^^ c) := by
  rw [fcs_calc_eq_foldStep, fcs_calc_eq_foldStep, fcs_calc_eq_foldStep,
    foldStep_xor]
  apply List.foldl_ext
  intro a i _
  rw [Nat.testBit_xor]

lemma fcs_calc_zero_octet_ne : ∀ d : Nat, d < 256 → d ≠ 0 → fcs_calc 0 d ≠ 0 := by
  decide

/-- Two distinct octets update any common state to distinct values. -/
lemma fcs_calc_octet_inj (v b c : Nat) (hb : b < 256) (hc : c < 256)
    (hne : b ≠ c) : fcs_calc v b ≠ fcs_calc v c := by
  intro h
  have h0 : fcs_calc v b ^^^ fcs_calc v c = 0 := by
    rw [h, Nat.xor_self]
  rw [fcs_calc_xor, Nat.xor_self] at h0
  have hd : b ^^^ c ≠ 0 := by
    intro hz
    exact hne (Nat.xor_eq_zero.mp hz)
  have hdlt : b ^^^ c < 256 := by
    have : (256 : Nat) = 2 ^ 8 := by norm_num
    rw [this] at hb hc ⊢
    exact Nat.xor_lt_two_pow hb hc
  exact fcs_calc_zero_octet_ne (b ^^^ c) hdlt hd h0

/-- Inverse of a CRC bit step on 16-bit states: bit 15 of the output tells
whether the polynomial was xored in, which recovers the pre-shift state and,
with the input bit, the consumed low bit. -/
def fcsStepInv (b : Bool) (x : Nat) : Nat :=
  2 * (if x.testBit 15 then x ^^^ 0xa001 else x) + (if x.testBit 15 != b then 1 else 0)

lemma fcsStepInv_fcsStep (b : Bool) (w : Nat) (h : w < 65536) :
    fcsStepInv b (fcsStep b w) = w := by
  have hq : w / 2 < 32768 := by omega
  have hqbit : (w / 2).testBit 15 = false := by
    apply Nat.testBit_eq_false_of_lt
    norm_num
    exact hq
  have hxorbit : ((w / 2) ^^^ 0xa001).testBit 15 = true := by
    rw [Nat.testBit_xor, hqbit]
    rfl
  rcases Nat.mod_two_eq_zero_or_one w with hw | hw <;> cases b <;>
    simp [fcsStep, fcsStepInv, hw, hxorbit, hqbit, Nat.xor_assoc] <;> omega

lemma foldStep_inv (is : List Nat) (f : Nat → Bool) : ∀ v : Nat, v < 65536 →
    is.foldr (fun i w => fcsStepInv (f i) w)
        (is.foldl (fun w i => fcsStep (f i) w) v) = v := by
  induction is with
  | nil => intro v _; rfl
  | cons i is ih =>
      intro v hv
      simp only [List.foldl_cons, List.foldr_cons]
      rw [ih (fcsStep (f i) v) (fcsStep_lt (f i) v hv), fcsStepInv_fcsStep (f i) v hv]

/-- The CRC octet update is injective in the 16-bit state. -/
lemma fcs_calc_state_inj (oct v w : Nat) (hv : v < 65536) (hw : w < 65536)
    (h : fcs_calc v oct = fcs_calc w oct) : v = w := by
  have h1 := foldStep_inv (List.range 8) oct.testBit v hv
  have h2 := foldStep_inv (List.range 8) oct.testBit w hw
  rw [← fcs_calc_eq_foldStep] at h1 h2
  rw [h] at h1
  exact h1.symm.trans h2

lemma fold_fcs_inj (bs : List Nat) : ∀ v w : Nat, v < 65536 → w < 65536 →
    List.foldl fcs_calc v bs = List.foldl fcs_calc w bs → v = w := by
  induction bs with
  | nil => intro v w _ _ h; simpa using h
  | cons b bs ih =>
      intro v w hv hw h
      simp only [List.foldl_cons] at h
      have := ih (fcs_calc v b) (fcs_calc w b) (fcs_calc_lt v b hv)
        (fcs_calc_lt w b hw) h
      exact fcs_calc_state_inj b v w hv hw this

lemma stuffBytes_cons_ne (b : Nat) (bs : List Nat) (hb : b ≠ 0x10) :
    stuffBytes (b :: bs) = b :: stuffBytes bs := by
  simp [stuffBytes, hb]

lemma send_frame_concat (head info : List Nat) :
    send_frame head info =
      FRAME_START ++ (stuffBytes (head ++ info) ++ (FRAME_END ++
        [(List.foldl fcs_calc 0 ((head ++ info) ++ [0x03])) % 256,
         (List.foldl fcs_calc 0 ((head ++ info) ++ [0x03])) / 256])) := by
  rw [send_frame_eq, stuffBytes_append]
  simp [List.append_assoc]

/-- C6 (amended): corrupting a single transmitted byte that carries a
logical data byte, where neither the original byte nor the replacement is
the escape value `0x10` (so the corruption does not rewrite the
escape/terminator framing), always causes decode of the corrupted stream to
fail with a checksum mismatch.  The logical content is `pre ++ b :: suf`,
the corrupted transmitted position is `3 + (stuffBytes pre).length` (the
position of `b`, past the 3-byte start marker and the stuffed rendering of
`pre`), and the replacement byte is `bNew`. -/
theorem single_corruption_detected (pre suf : List Nat) (b bNew : Nat)
    (head info : List Nat) (hsplit : head ++ info = pre ++ b :: suf)
    (hb : b < 256) (hbNew : bNew < 256) (hne : b ≠ bNew)
    (hbe : b ≠ 0x10) (hbNewe : bNew ≠ 0x10) :
    recv_frame ((send_frame head info).set (3 + (stuffBytes pre).length) bNew) =
      none := by
  set F := List.foldl fcs_calc 0 ((pre ++ b :: suf) ++ [0x03]) with hFdef
  set tail : List Nat :=
    stuffBytes suf ++ (FRAME_END ++ [F % 256, F / 256]) with htail
  have hstream : send_frame head info =
      FRAME_START ++ (stuffBytes pre ++ (b :: tail)) := by
    rw [send_frame_concat, hsplit, stuffBytes_append, stuffBytes_cons_ne b suf hbe,
      ← hFdef, htail]
    simp [List.append_assoc]
  have h3 : FRAME_START.length = 3 := rfl
  have hset : (send_frame head info).set (3 + (stuffBytes pre).length) bNew =
      FRAME_START ++ (stuffBytes pre ++ (bNew :: tail)) := by
    rw [hstream, List.set_append_right _ _ (by omega), h3]
    have harith : 3 + (stuffBytes pre).length - 3 = (stuffBytes pre).length := by
      omega
    rw [harith, List.set_append_right _ _ (le_refl _), Nat.sub_self,
      List.set_cons_zero]
  set Fc := List.foldl fcs_calc 0 ((pre ++ bNew :: suf) ++ [0x03]) with hFcdef
  have hs : List.foldl fcs_calc 0 pre < 65536 := fold_fcs_lt pre 0 (by norm_num)
  have hFne : Fc ≠ F := by
    intro h
    have hx : F = List.foldl fcs_calc
        (fcs_calc (List.foldl fcs_calc 0 pre) b) (suf ++ [0x03]) := by
      rw [hFdef]
      simp [List.foldl_append]
    have hy : Fc = List.foldl fcs_calc
        (fcs_calc (List.foldl fcs_calc 0 pre) bNew) (suf ++ [0x03]) := by
      rw [hFcdef]
      simp [List.foldl_append]
    rw [hx, hy] at h
    have heq := fold_fcs_inj (suf ++ [0x03]) _ _
      (fcs_calc_lt _ bNew hs) (fcs_calc_lt _ b hs) h
    exact fcs_calc_octet_inj (List.foldl fcs_calc 0 pre) b bNew hb hbNew hne heq.symm
  have hbody : bodyLoop 0 0 [] (stuffBytes pre ++ (bNew :: tail)) =
      some (Fc, pre ++ bNew :: suf, [F % 256, F / 256]) := by
    rw [bodyLoop_stuffed, htail]
    have hNewF : (bNew == 0x10) = false := by simp [hbNewe]
    show bodyLoop 0 (List.foldl fcs_calc 0 pre) ([] ++ pre)
        (bNew :: (stuffBytes suf ++ (FRAME_END ++ [F % 256, F / 256]))) = _
    rw [List.nil_append]
    rw [show bodyLoop 0 (List.foldl fcs_calc 0 pre) pre
        (bNew :: (stuffBytes suf ++ (FRAME_END ++ [F % 256, F / 256]))) =
        bodyLoop 0 (fcs_calc (List.foldl fcs_calc 0 pre) bNew) (pre ++ [bNew])
          (stuffBytes suf ++ (FRAME_END ++ [F % 256, F / 256])) from by
      simp [bodyLoop, hNewF]]
    rw [bodyLoop_stuffed, bodyLoop_end]
    have : fcs_calc (List.foldl fcs_calc
        (fcs_calc (List.foldl fcs_calc 0 pre) bNew) suf) 0x03 = Fc := by
      rw [hFcdef]
      simp [List.foldl_append]
    rw [this]
    simp [List.append_assoc]
  have hcond : (Fc % 256 == F % 256 && Fc / 256 == F / 256) = false := by
    rcases eq_or_ne (Fc % 256) (F % 256) with h1 | h1
    · rcases eq_or_ne (Fc / 256) (F / 256) with h2 | h2
      · exact absurd (by omega : Fc = F) hFne
      · simp [h2]
    · simp [h1]
  rw [hset]
  simp [recv_frame, scanLoop_start, hbody, hcond]

/-- C6 counterexample: the encoded frame for header `[244, 63, 0x10]` (no
payload) is `[22,16,2,244,63,16,16,16,3,79,253]`.  Replacing the single
transmitted byte at index 6 — the byte-stuffing double of the logical
`0x10`, not inside the checksum field (indices 9-10) — with `0x03` forges
an early end marker; the decoder then reads the genuine end-marker bytes
`[16, 3]` as the checksum field, and they happen to equal the CRC of the
truncated content, so decode silently succeeds with wrong content
`[244, 63]` instead of failing. -/
theorem single_corruption_cex :
    (send_frame [244, 63, 0x10] []).getD 6 0 = 0x10 ∧
    (send_frame [244, 63, 0x10] []).length = 11 ∧
    recv_frame ((send_frame [244, 63, 0x10] []).set 6 0x03) =
      some ([244, 63], [79, 253]) ∧
    ([244, 63] : List Nat) ≠ [244, 63, 0x10] := by
  refine ⟨by decide, by decide, by decide, by decide⟩

theorem single_corruption_detected_witness :
    recv_frame ((send_frame [1, 2] [4]).set (3 + (stuffBytes [1]).length) 9) =
      none :=
  single_corruption_detected [1] [4] 2 9 [1, 2] [4] (by decide) (by decide)
    (by decide) (by decide) (by decide) (by decide)

/-- C7 counterexample: the stream `[0x16, 0x16, 0x10, 0x02]` contains the
3-byte start marker (at offset 1, as the second conjunct exhibits), yet the
scanner consumes all four bytes without locating it — after the second
`0x16` fails the state-1 test the state is reset to 0 and that byte is not
reconsidered — so both the scan and the whole decode fail. -/
theorem marker_scan_cex :
    scanLoop 0 [0x16, 0x16, 0x10, 0x02] = none ∧
    [0x16, 0x16, 0x10, 0x02] = [0x16] ++ [0x16, 0x10, 0x02] ++ ([] : List Nat) ∧
    recv_frame [0x16, 0x16, 0x10, 0x02] = none := by
  refine ⟨by decide, by decide, by decide⟩

lemma scanLoop_resync (junk : List Nat) : ∀ (st : Nat) (rest : List Nat),
    (∀ k, k ≤ junk.length → List.foldl scanStep st (junk.take k) ≠ 3) →
    List.foldl scanStep st junk = 0 →
    scanLoop st (junk ++ 0x16 :: 0x10 :: 0x02 :: rest) = some rest := by
  induction junk with
  | nil =>
      intro st rest _ h0
      simp only [List.foldl_nil] at h0
      subst h0
      simp [scanLoop, scanStep]
  | cons b junk ih =>
      intro st rest hk h0
      have hb : scanStep st b ≠ 3 := by
        have := hk 1 (by simp)
        simpa using this
      have hb' : (scanStep st b == 3) = false := by simp [hb]
      simp only [List.cons_append, scanLoop, hb', Bool.false_eq_true, if_false]
      apply ih (scanStep st b) rest
      · intro k hklen
        have := hk (k + 1) (by simpa using Nat.succ_le_succ hklen)
        simpa using this
      · simpa using h0

/-- C7 (amended): the scanning phase does discard leading bytes and locate
the start marker whenever the matcher is back in its initial state when the
marker begins — in particular for any junk prefix free of partial-marker
matches running into the marker; but (per the counterexample) a
partial-marker prefix such as `0x16` immediately before the marker makes
the non-backtracking scanner miss that occurrence. -/
theorem marker_scan_amended (junk rest : List Nat)
    (hk : ∀ k, k ≤ junk.length → List.foldl scanStep 0 (junk.take k) ≠ 3)
    (h0 : List.foldl scanStep 0 junk = 0) :
    scanLoop 0 (junk ++ 0x16 :: 0x10 :: 0x02 :: rest) = some rest :=
  scanLoop_resync junk 0 rest hk h0

theorem marker_scan_amended_witness :
    scanLoop 0 ([0x41, 0x16, 0x99] ++ 0x16 :: 0x10 :: 0x02 :: [7]) = some [7] :=
  marker_scan_amended [0x41, 0x16, 0x99] [7] (by decide) (by decide)

/-- `send_la_frame` (lines 152-153): the wire bytes of an acknowledgement
frame for sequence number `seq`, header `[0x03, 0x05, seq, 0x01]`, no
payload. -/
def send_la_frame (seq : Nat) : List Nat :=
  send_frame [0x03, 0x05, seq, 0x01] []

/-- Byte 1 of a received frame, its tag (`recv[1]` in the source). -/
def frameTag (f : List Nat) : Nat := f.getD 1 0

/-- Byte 2 of a received frame, its sequence number (`recv[2]`). -/
def frameSeq (f : List Nat) : Nat := f.getD 2 0

/-- `wait_la_frame` (lines 145-150) over the list of frames successfully
received while waiting (a `None` from `recv_frame` makes the Python loop
`continue`, so failed reads are not modelled).  Each frame `f` is inspected
at byte 1 (tag) and byte 2 (sequence number); a tag-`0x04` dock frame is
immediately answered with `send_la_frame` of its sequence number; a
tag-`0x05` frame whose sequence number equals `seq` resolves the wait.
Returns the acknowledgement frames sent, in order, and whether the wait
resolved (`false` models blocking forever once the input is exhausted).
Byte access uses `getD` (the Python raises `IndexError` on frames shorter
than 3 bytes; theorems therefore restrict to frames of length at least 3). -/
def wait_la_frame (seq : Nat) : List (List Nat) → List (List Nat) × Bool
  | [] => ([], false)
  | f :: rest =>
      let acks : List (List Nat) :=
        if frameTag f == 0x04 then [send_la_frame (frameSeq f)] else []
      if frameTag f == 0x05 && frameSeq f == seq then (acks, true)
      else
        (acks ++ (wait_la_frame seq rest).1, (wait_la_frame seq rest).2)

/-- C8: while `wait_la_frame` is blocking on sequence number `seq`, the
acknowledgement frames it sends are exactly one `send_la_frame` (carrying
the embedded sequence number) for every dock/keep-alive frame (tag `0x04`)
among the frames processed before the wait resolves — i.e. within the
longest prefix of the input containing no tag-`0x05` frame with sequence
number `seq` — and the wait resolves successfully if and only if such an
acknowledgement frame is observed in the input. -/
theorem wait_la_acks_and_resolution (seq : Nat) (frames : List (List Nat))
    (hlen : ∀ f ∈ frames, 3 ≤ f.length) :
    wait_la_frame seq frames =
      (((frames.takeWhile
            (fun f => !(frameTag f == 0x05 && frameSeq f == seq))).filter
          (fun f => frameTag f == 0x04)).map
        (fun f => send_la_frame (frameSeq f)),
       frames.any (fun f => frameTag f == 0x05 && frameSeq f == seq)) := by
  induction frames with
  | nil => rfl
  | cons f rest ih =>
      have ihr := ih (fun g hg => hlen g (List.mem_cons_of_mem f hg))
      by_cases hres : (frameTag f == 0x05 && frameSeq f == seq) = true
      · have h4 : (frameTag f == 0x04) = false := by
          rcases Bool.and_eq_true_iff.mp hres with ⟨h5, _⟩
          have h5' : frameTag f = 0x05 := by simpa using h5
          simp [h5']
        simp only [wait_la_frame, List.takeWhile_cons, List.filter_cons,
          List.any_cons, hres, h4, Bool.not_true, if_false, Bool.false_eq_true,
          ite_true, ite_false, Bool.true_or]
        rfl
      · have hres' : (frameTag f == 0x05 && frameSeq f == seq) = false := by
          simpa using hres
        by_cases h4 : (frameTag f == 0x04) = true
        · simp only [wait_la_frame, List.takeWhile_cons, List.filter_cons,
            List.any_cons, hres', h4, Bool.not_false, Bool.false_eq_true,
            ite_true, ite_false, if_false, Bool.false_or, ihr,
            List.map_cons, List.singleton_append]
        · have h4' : (frameTag f == 0x04) = false := by simpa using h4
          simp only [wait_la_frame, List.takeWhile_cons, List.filter_cons,
            List.any_cons, hres', h4', Bool.not_false, Bool.false_eq_true,
            ite_true, ite_false, if_false, Bool.false_or, ihr]
          rfl

theorem wait_la_acks_and_resolution_witness :
    wait_la_frame 9 [[8, 4, 5, 1], [3, 5, 9, 1]] =
      ([send_la_frame 5], true) := by
  have h := wait_la_acks_and_resolution 9 [[8, 4, 5, 1], [3, 5, 9, 1]]
    (by intro f hf; fin_cases hf <;> decide)
  rw [h]
  rfl

/-- The three call sites in `run_installer` where the sequence counter is
advanced after a payload-bearing frame is acknowledged: the handshake
frames (lines 175, 186, 204), the package-begin `lpkg` frame (line 220),
and the per-chunk frames (line 227). -/
inductive PayloadKind
  | handshake
  | pkgBegin
  | chunk
deriving DecidableEq

/-- The increment applied to `self.lt_seq_no` at each call site: plain
`+= 1` after handshake and package-begin acknowledgements (lines 175, 186,
204, 220), and `(self.lt_seq_no + 1) % 256` after chunk acknowledgements
(line 227). -/
def seqStep (s : Nat) : PayloadKind → Nat
  | PayloadKind.handshake => s + 1
  | PayloadKind.pkgBegin => s + 1
  | PayloadKind.chunk => (s + 1) % 256

/-- C4 counterexample: the package-begin increment is not reduced modulo
256 — from 255 it yields 256 rather than 0 — and the out-of-range value is
reachable: a session with two queued packages, the first of 251 chunks
(e.g. any file of 64001..64256 bytes), leaves the counter at 255 when the
second package-begin frame is acknowledged, after which the counter is 256,
outside 0..255. -/
theorem seq_counter_cex :
    seqStep 255 PayloadKind.pkgBegin = 256 ∧
    seqStep 255 PayloadKind.pkgBegin ≠ (255 + 1) % 256 ∧
    List.foldl seqStep 0
        ([PayloadKind.handshake, PayloadKind.handshake, PayloadKind.handshake,
          PayloadKind.pkgBegin] ++
          List.replicate 251 PayloadKind.chunk ++ [PayloadKind.pkgBegin]) =
      256 := by
  refine ⟨rfl, by decide, by decide⟩

lemma seq_fold_chunks (n : Nat) : ∀ s : Nat, s < 256 →
    List.foldl seqStep s (List.replicate n PayloadKind.chunk) = (s + n) % 256 := by
  induction n with
  | zero => intro s hs; simp [Nat.mod_eq_of_lt hs]
  | succ n ih =>
      intro s hs
      rw [List.replicate_succ, List.foldl_cons]
      have h1 : seqStep s PayloadKind.chunk = (s + 1) % 256 := rfl
      rw [h1, ih ((s + 1) % 256) (Nat.mod_lt _ (by norm_num))]
      omega

/-- C4 (amended): the sequence counter is advanced by one after every
acknowledged payload frame, but the reduction modulo 256 is applied only on
chunk-frame acknowledgements; a chunk increment keeps the counter in
0..255 and 256 consecutive acknowledged chunk frames return it to its
starting value, while handshake and package-begin acknowledgements add one
without reduction (so an acknowledgement at counter value 255 leaves the
8-bit range, as the counterexample shows). -/
theorem seq_counter_amended (s : Nat) (hs : s < 256) :
    seqStep s PayloadKind.chunk = (s + 1) % 256 ∧
    seqStep s PayloadKind.chunk < 256 ∧
    seqStep s PayloadKind.handshake = s + 1 ∧
    seqStep s PayloadKind.pkgBegin = s + 1 ∧
    List.foldl seqStep s (List.replicate 256 PayloadKind.chunk) = s := by
  refine ⟨rfl, Nat.mod_lt _ (by norm_num), rfl, rfl, ?_⟩
  rw [seq_fold_chunks 256 s hs]
  omega

theorem seq_counter_amended_witness :
    seqStep 7 PayloadKind.chunk = (7 + 1) % 256 ∧
    seqStep 7 PayloadKind.chunk < 256 ∧
    seqStep 7 PayloadKind.handshake = 7 + 1 ∧
    seqStep 7 PayloadKind.pkgBegin = 7 + 1 ∧
    List.foldl seqStep 7 (List.replicate 256 PayloadKind.chunk) = 7 :=
  seq_counter_amended 7 (by decide)

/-- The chunk start offsets of the upload loop, `range(0, f_len,
MAX_INFO_LEN)` (line 222). -/
def chunkOffsets (i L : Nat) : List Nat :=
  if i < L then i :: chunkOffsets (i + MAX_INFO_LEN) L else []
termination_by L - i
decreasing_by simp [MAX_INFO_LEN]; omega

/-- The padding loop `while len(chunk) % 4 != 0: chunk += b'\x00'`
(line 224). -/
def pad4 (chunk : List Nat) : List Nat :=
  if chunk.length % 4 != 0 then pad4 (chunk ++ [0]) else chunk
termination_by (4 - chunk.length % 4) % 4
decreasing_by simp_all; omega

/-- The padded chunks produced by the upload loop (lines 222-224): for each
start offset `i`, the slice `data[i:i+MAX_INFO_LEN]` padded with zero bytes
until its length is a multiple of 4. -/
def run_chunks (data : List Nat) : List (List Nat) :=
  (chunkOffsets 0 data.length).map
    (fun i => pad4 ((data.drop i).take MAX_INFO_LEN))

/-- The unpadded slices `data[i:i+MAX_INFO_LEN]` (line 223). -/
def rawChunks (data : List Nat) : List (List Nat) :=
  (chunkOffsets 0 data.length).map (fun i => (data.drop i).take MAX_INFO_LEN)

/-- The progress values assigned after each chunk (line 228):
`(i / f_len) * 100` with `i` the chunk's start offset, as exact rational
arithmetic in place of Python float division. -/
def chunkProgress (L : Nat) : List ℚ :=
  (chunkOffsets 0 L).map (fun (i : Nat) => ((i : ℚ) / (L : ℚ)) * 100)

lemma pad4_eq (c : List Nat) :
    pad4 c = c ++ List.replicate ((4 - c.length % 4) % 4) 0 := by
  by_cases h : c.length % 4 = 0
  · rw [pad4]
    simp [h]
  · have hrec := pad4_eq (c ++ [0])
    rw [pad4]
    have hcond : (c.length % 4 != 0) = true := by simpa using h
    rw [if_pos hcond, hrec]
    have hlen : (c ++ [0]).length = c.length + 1 := by simp
    rw [hlen, List.append_assoc]
    congr 1
    have : (0 : Nat) :: List.replicate ((4 - (c.length + 1) % 4) % 4) 0 =
        List.replicate ((4 - (c.length + 1) % 4) % 4 + 1) 0 := by
      rw [List.replicate_succ]
    simp only [List.cons_append, List.nil_append, this]
    congr 1
    omega
termination_by (4 - c.length % 4) % 4
decreasing_by simp_all; omega

lemma chunkOffsets_closed (n : Nat) : ∀ i L : Nat, L - i ≤ n →
    chunkOffsets i L =
      (List.range ((L - i + 255) / 256)).map (fun k => i + 256 * k) := by
  induction n with
  | zero =>
      intro i L h
      have hiL : ¬ i < L := by omega
      rw [chunkOffsets, if_neg hiL]
      have : (L - i + 255) / 256 = 0 := by omega
      rw [this]
      rfl
  | succ n ih =>
      intro i L h
      by_cases hiL : i < L
      · rw [chunkOffsets, if_pos hiL]
        have hrec := ih (i + MAX_INFO_LEN) L (by simp [MAX_INFO_LEN]; omega)
        rw [hrec]
        have hm : (L - i + 255) / 256 = (L - (i + MAX_INFO_LEN) + 255) / 256 + 1 := by
          simp only [MAX_INFO_LEN]
          omega
        rw [hm, List.range_succ_eq_map, List.map_cons, List.map_map]
        simp only [Function.comp_apply, mul_zero, add_zero]
        congr 1
        apply List.map_congr_left
        intro k _
        simp only [Function.comp_apply, MAX_INFO_LEN]
        omega
      · rw [chunkOffsets, if_neg hiL]
        have : (L - i + 255) / 256 = 0 := by omega
        rw [this]
        rfl

lemma chunkOffsets_zero (L : Nat) :
    chunkOffsets 0 L = (List.range ((L + 255) / 256)).map (fun k => 256 * k) := by
  have h := chunkOffsets_closed L 0 L (by omega)
  simpa using h

lemma run_chunks_eq_map_pad (data : List Nat) :
    run_chunks data = (rawChunks data).map pad4 := by
  unfold run_chunks rawChunks
  rw [List.map_map]
  rfl

lemma pad4_len_mod (c : List Nat) : (pad4 c).length % 4 = 0 := by
  rw [pad4_eq]
  simp only [List.length_append, List.length_replicate]
  omega

lemma pad4_len_ge (c : List Nat) : c.length ≤ (pad4 c).length := by
  rw [pad4_eq]
  simp

lemma run_chunks_length (data : List Nat) :
    (run_chunks data).length = (data.length + 255) / 256 := by
  unfold run_chunks
  rw [chunkOffsets_zero]
  simp

lemma rawChunks_cons (data : List Nat) (h : 0 < data.length) :
    rawChunks data =
      data.take MAX_INFO_LEN :: rawChunks (data.drop MAX_INFO_LEN) := by
  unfold rawChunks
  rw [chunkOffsets]
  rw [if_pos h]
  rw [List.map_cons, List.drop_zero]
  congr 1
  have hlen : (data.drop MAX_INFO_LEN).length = data.length - MAX_INFO_LEN := by
    simp
  rw [hlen]
  have h1 := chunkOffsets_closed data.length MAX_INFO_LEN data.length (by omega)
  have h2 := chunkOffsets_closed data.length 0 (data.length - MAX_INFO_LEN) (by omega)
  rw [Nat.zero_add, h1, h2, List.map_map, List.map_map]
  have hcount : (data.length - MAX_INFO_LEN + 255) / 256 =
      (data.length - MAX_INFO_LEN - 0 + 255) / 256 := by
    omega
  rw [show data.length - MAX_INFO_LEN - 0 = data.length - MAX_INFO_LEN from by omega]
  apply List.map_congr_left
  intro k _
  simp only [Function.comp_apply, Nat.zero_add, List.drop_drop]

lemma rawChunks_flatten (n : Nat) : ∀ data : List Nat, data.length ≤ n →
    (rawChunks data).flatten = data := by
  induction n with
  | zero =>
      intro data hlen
      have : data = [] := List.length_eq_zero.mp (by omega)
      subst this
      unfold rawChunks
      rw [chunkOffsets, if_neg (by simp)]
      rfl
  | succ n ih =>
      intro data hlen
      by_cases h0 : 0 < data.length
      · rw [rawChunks_cons data h0, List.flatten_cons]
        rw [ih (data.drop MAX_INFO_LEN) (by simp [MAX_INFO_LEN]; omega)]
        exact List.take_append_drop MAX_INFO_LEN data
      · have : data = [] := List.length_eq_zero.mp (by omega)
        subst this
        unfold rawChunks
        rw [chunkOffsets, if_neg (by simp)]
        rfl

lemma run_chunks_total_ge (data : List Nat) :
    data.length ≤ ((run_chunks data).map List.length).sum := by
  have hraw : ((rawChunks data).map List.length).sum = data.length := by
    rw [← List.length_flatten, rawChunks_flatten data.length data (le_refl _)]
  calc data.length = ((rawChunks data).map List.length).sum := hraw.symm
    _ ≤ ((rawChunks data).map (fun c => (pad4 c).length)).sum :=
        List.sum_le_sum (fun c _ => pad4_len_ge c)
    _ = ((run_chunks data).map List.length).sum := by
        rw [run_chunks_eq_map_pad, List.map_map]
        rfl

lemma rawChunks_nil : rawChunks ([] : List Nat) = [] := by
  unfold rawChunks
  rw [chunkOffsets]
  simp

/-- C3: splitting a package of `L > 0` bytes with maximum chunk size 256
produces `ceil(L/256) = (L+255)/256` chunks; every chunk's final length is
a multiple of 4; each chunk is exactly its unpadded slice with zero bytes
appended at the right end (never prepended or interleaved); the
concatenation of the unpadded slices reconstructs the original bytes; the
total padded length is at least `L`; and a 257-byte package yields a second
chunk of length 1 padded to `[data_byte, 0, 0, 0]`. -/
theorem chunking_correct (data : List Nat) (h : 0 < data.length) :
    (run_chunks data).length = (data.length + 255) / 256 ∧
    (∀ c ∈ run_chunks data, c.length % 4 = 0) ∧
    run_chunks data = (rawChunks data).map
      (fun c => c ++ List.replicate ((4 - c.length % 4) % 4) 0) ∧
    (rawChunks data).flatten = data ∧
    data.length ≤ ((run_chunks data).map List.length).sum ∧
    (data.length = 257 →
      run_chunks data = [data.take 256, data.drop 256 ++ [0, 0, 0]]) := by
  refine ⟨run_chunks_length data, ?_, ?_,
    rawChunks_flatten data.length data (le_refl _),
    run_chunks_total_ge data, ?_⟩
  · intro c hc
    rw [run_chunks_eq_map_pad] at hc
    rcases List.mem_map.mp hc with ⟨r, _, rfl⟩
    exact pad4_len_mod r
  · rw [run_chunks_eq_map_pad]
    apply List.map_congr_left
    intro c _
    exact pad4_eq c
  · intro h257
    have hr1 := rawChunks_cons data h
    have hlen2 : (data.drop MAX_INFO_LEN).length = 1 := by
      simp [MAX_INFO_LEN, h257]
    have hr2 := rawChunks_cons (data.drop MAX_INFO_LEN) (by omega)
    have htake : (data.drop MAX_INFO_LEN).take MAX_INFO_LEN =
        data.drop MAX_INFO_LEN :=
      List.take_of_length_le (by rw [hlen2]; norm_num [MAX_INFO_LEN])
    have hdd : (data.drop MAX_INFO_LEN).drop MAX_INFO_LEN = [] :=
      List.drop_eq_nil_iff.mpr (by rw [hlen2]; norm_num [MAX_INFO_LEN])
    rw [htake, hdd, rawChunks_nil] at hr2
    rw [run_chunks_eq_map_pad, hr1, hr2]
    simp only [List.map_cons, List.map_nil]
    have hp1 : pad4 (data.take MAX_INFO_LEN) = data.take 256 := by
      rw [pad4_eq]
      have hl : (data.take MAX_INFO_LEN).length = 256 := by
        simp [MAX_INFO_LEN, h257]
      rw [hl]
      simp [MAX_INFO_LEN]
    have hp2 : pad4 (data.drop MAX_INFO_LEN) = data.drop 256 ++ [0, 0, 0] := by
      rw [pad4_eq, hlen2]
      simp [MAX_INFO_LEN]
    rw [hp1, hp2]

theorem chunking_correct_witness :
    (run_chunks [1, 2, 3, 4, 5]).length = (5 + 255) / 256 ∧
    (∀ c ∈ run_chunks [1, 2, 3, 4, 5], c.length % 4 = 0) ∧
    run_chunks [1, 2, 3, 4, 5] = (rawChunks [1, 2, 3, 4, 5]).map
      (fun c => c ++ List.replicate ((4 - c.length % 4) % 4) 0) ∧
    (rawChunks [1, 2, 3, 4, 5]).flatten = [1, 2, 3, 4, 5] ∧
    ([1, 2, 3, 4, 5] : List Nat).length ≤
      ((run_chunks [1, 2, 3, 4, 5]).map List.length).sum ∧
    (([1, 2, 3, 4, 5] : List Nat).length = 257 →
      run_chunks [1, 2, 3, 4, 5] =
        [([1, 2, 3, 4, 5] : List Nat).take 256,
         ([1, 2, 3, 4, 5] : List Nat).drop 256 ++ [0, 0, 0]]) := by
  have := chunking_correct [1, 2, 3, 4, 5] (by norm_num)
  simpa using this

lemma chunkProgress_closed (L : Nat) :
    chunkProgress L =
      (List.range ((L + 255) / 256)).map
        (fun k => ((256 * k : Nat) : ℚ) / (L : ℚ) * 100) := by
  unfold chunkProgress
  rw [chunkOffsets_zero, List.map_map]
  apply List.map_congr_left
  intro k _
  simp [Function.comp]

/-- C9 counterexample: a 256-byte package has exactly one chunk, and after
it is sent and acknowledged the code assigns progress `(i / f_len) * 100`
with `i = 0`, the chunk's START offset — so the reported value is 0 even
though all 256 of 256 bytes have been sent, where the claim demands
fraction `bytes_sent / total_length = 1` (value 100). -/
theorem progress_cex :
    chunkProgress 256 = [0] ∧
    (256 : ℚ) / 256 * 100 = 100 ∧
    (0 : ℚ) ≠ 100 := by
  refine ⟨?_, by norm_num, by norm_num⟩
  rw [chunkProgress_closed]
  norm_num [List.range_succ]

/-- C9 (amended): there is one progress report per chunk, and the value
reported after the k-th chunk (0-based) is `(256*k)/L * 100`: the fraction
of bytes sent BEFORE that chunk, scaled to percent — not
`bytes_sent / total_length` after it; in particular the report after the
final chunk stays below 100 whenever the last chunk is nonempty. -/
theorem progress_amended (L : Nat) :
    chunkProgress L =
      (List.range ((L + 255) / 256)).map
        (fun k => ((256 * k : Nat) : ℚ) / (L : ℚ) * 100) ∧
    (chunkProgress L).length = (L + 255) / 256 := by
  refine ⟨chunkProgress_closed L, ?_⟩
  rw [chunkProgress_closed]
  simp

/-- Observable side effects of `run_installer` relevant to session teardown
(lines 159-240): closing the serial port, emitting a log message, and
re-enabling the start control. -/
inductive Eff
  | closePort
  | logMsg (s : String)
  | btnNormal
deriving DecidableEq

/-- Shallow model of `run_installer`'s control flow (lines 159-240).  The
protocol body (lines 161-233, everything up to and including the disconnect
send) is abstracted as the effects it emitted before either completing
(`none`) or raising an exception with message `e` (`some e`).  On normal
completion the tail of the `try` block runs: `self.log("Session
Finished.")` then `self.port.close()` (lines 234-235).  The `except` arm
(lines 237-238) logs `"ERROR: " ++ e` and does NOT close the port; the
`finally` arm (lines 239-240) re-enables the start control on every path.
The port is closed nowhere else in the function, which the theorems record
as the hypothesis that the body's own effects contain no `closePort`. -/
def run_installer_effects (body : List Eff × Option String) : List Eff :=
  match body.2 with
  | none => body.1 ++ [Eff.logMsg "Session Finished.", Eff.closePort, Eff.btnNormal]
  | some e => body.1 ++ [Eff.logMsg (String.append "ERROR: " e), Eff.btnNormal]

/-- C5 counterexample: a session whose protocol body raises immediately
(effects so far `[]`, reason `"boom"`) ends with the error logged and the
start control re-enabled, but the port is never closed — the stream is NOT
released on the failure exit path. -/
theorem session_cleanup_cex :
    Eff.closePort ∉ run_installer_effects ([], some "boom") ∧
    run_installer_effects ([], some "boom") =
      [Eff.logMsg (String.append "ERROR: " "boom"), Eff.btnNormal] := by
  refine ⟨by decide, rfl⟩

/-- C5 (amended): the run-session entry point catches a failure raised by
any component and reports it (a log entry `"ERROR: " ++ reason`), and on
every exit path it re-enables the start control as its final effect; but
the stream is closed only on the success path — on failure the port is
left open (the `finally` block only restores the button). -/
theorem session_cleanup_amended (effs : List Eff) (err : Option String)
    (hbody : Eff.closePort ∉ effs) :
    (∀ e, err = some e →
      Eff.logMsg (String.append "ERROR: " e) ∈ run_installer_effects (effs, err) ∧
      Eff.closePort ∉ run_installer_effects (effs, err)) ∧
    (err = none → Eff.closePort ∈ run_installer_effects (effs, err)) ∧
    (run_installer_effects (effs, err)).getLast? = some Eff.btnNormal := by
  refine ⟨?_, ?_, ?_⟩
  · intro e he
    subst he
    constructor
    · simp [run_installer_effects]
    · simp only [run_installer_effects, List.mem_append]
      rintro (h | h)
      · exact hbody h
      · simp at h
  · intro he
    subst he
    simp [run_installer_effects]
  · rcases err with _ | e
    · show (effs ++ [Eff.logMsg "Session Finished.", Eff.closePort, Eff.btnNormal]).getLast? = _
      rw [show effs ++ [Eff.logMsg "Session Finished.", Eff.closePort, Eff.btnNormal] =
        (effs ++ [Eff.logMsg "Session Finished.", Eff.closePort]) ++ [Eff.btnNormal] from by
          simp]
      exact List.getLast?_concat _
    · show (effs ++ [Eff.logMsg (String.append "ERROR: " e), Eff.btnNormal]).getLast? = _
      rw [show effs ++ [Eff.logMsg (String.append "ERROR: " e), Eff.btnNormal] =
        (effs ++ [Eff.logMsg (String.append "ERROR: " e)]) ++ [Eff.btnNormal] from by
          simp]
      exact List.getLast?_concat _

theorem session_cleanup_amended_witness :
    (∀ e, (some "boom" : Option String) = some e →
      Eff.logMsg (String.append "ERROR: " e) ∈
        run_installer_effects ([Eff.logMsg "x"], some "boom") ∧
      Eff.closePort ∉ run_installer_effects ([Eff.logMsg "x"], some "boom")) ∧
    ((some "boom" : Option String) = none →
      Eff.closePort ∈ run_installer_effects ([Eff.logMsg "x"], some "boom")) ∧
    (run_installer_effects ([Eff.logMsg "x"], some "boom")).getLast? =
      some Eff.btnNormal :=
  session_cleanup_amended [Eff.logMsg "x"] (some "boom") (by decide)
